import Mathlib

/- Shallow embedding of the dynel component engine (src/dynel.ts and
src/utils.ts): observable state containers and their static registry, the
event bus, the template fetch cache, slot projection, the script scoping
rewrite, uid generation and key derivation. Callback functions are
modelled opaquely by numeric ids, and every callback invocation is
recorded in a log as the pair (callback id, value passed), so ordering
and value claims are claims about the log. -/

namespace KV

/-- Association-list model of a JS Map: lookup returns the first binding. -/
def find? {κ α : Type} [DecidableEq κ] : List (κ × α) → κ → Option α
  | [], _ => none
  | (k2, v) :: rest, k => if k2 = k then some v else find? rest k

/-- Model of Map.set: overwrite the binding in place, or append a new one. -/
def set {κ α : Type} [DecidableEq κ] : List (κ × α) → κ → α → List (κ × α)
  | [], k, v => [(k, v)]
  | (k2, v2) :: rest, k, v =>
    if k2 = k then (k2, v) :: rest else (k2, v2) :: set rest k v

end KV

namespace RegM

/-- One State object from utils.ts: the stored value and the registered
subscriber callbacks (opaque ids). -/
structure SObj where
  value : Option Nat
  setCallbacks : List Nat
deriving DecidableEq

/-- The mutable world the State class closes over: an allocator giving each
object its identity, the heap of State objects, the static
State.instanceMap registry mapping names to objects, and the log of
subscriber invocations (callback id, value passed). -/
structure Reg where
  nextRef : Nat
  heap : List (Nat × SObj)
  instanceMap : List (String × Nat)
  callLog : List (Nat × Option Nat)
deriving DecidableEq

/-- The State constructor: store the initial value, start with no
callbacks, derive the name (the explicit one, else String(Date.now())),
and registerInstance - an unconditional Map.set into State.instanceMap.
Returns the new object's reference and the updated world. -/
def newState (initialValue : Option Nat) (name : Option String) (now : Nat)
    (r : Reg) : Nat × Reg :=
  let ref := r.nextRef
  let nm := name.getD (toString now)
  (ref,
    { nextRef := ref + 1,
      heap := KV.set r.heap ref { value := initialValue, setCallbacks := [] },
      instanceMap := KV.set r.instanceMap nm ref,
      callLog := r.callLog })

/-- State.prototype.set on the object at ref: assign the value, then invoke
every registered callback with this.value. Callbacks here are opaque, so
the invocations only append to the log. -/
def objSet (ref : Nat) (v : Nat) (r : Reg) : Reg :=
  match KV.find? r.heap ref with
  | none => r
  | some o =>
    { r with
      heap := KV.set r.heap ref { o with value := some v },
      callLog := r.callLog ++ o.setCallbacks.map (fun cb => (cb, some v)) }

/-- Static State.set: reuse the registered container for the name, or
create-and-register a fresh one, then set it. Prop.set in dynel.ts is this
same function, since class Prop extends State adds nothing and State.set
names State.instanceMap explicitly. -/
def staticSet (name : String) (v : Nat) (now : Nat) (r : Reg) : Reg :=
  match KV.find? r.instanceMap name with
  | some ref => objSet ref v r
  | none =>
    let p := newState none (some name) now r
    objSet p.1 v p.2

/-- Static State.get: read the named container's value without creating. -/
def staticGet (name : String) (r : Reg) : Option Nat :=
  match KV.find? r.instanceMap name with
  | none => none
  | some ref =>
    match KV.find? r.heap ref with
    | none => none
    | some o => o.value

/-- Dynel.key: name + "." + uid. -/
def key (uid name : String) : String := name ++ "." ++ uid

/-- Dynel.setProp, registry part: Prop.set(key, value) is State.set. The
attribute reflection in setProp touches the document tree, not the
registry, and is outside this model. -/
def setProp (uid propName : String) (v : Nat) (now : Nat) (r : Reg) : Reg :=
  staticSet (key uid propName) v now r

/-- Dynel.getProp: Prop.get(key) is State.get. -/
def getProp (uid propName : String) (r : Reg) : Option Nat :=
  staticGet (key uid propName) r

/-- Dynel.setState: State.set(key, value). -/
def setState (uid stateName : String) (v : Nat) (now : Nat) (r : Reg) : Reg :=
  staticSet (key uid stateName) v now r

/-- Dynel.getState: State.get(key). -/
def getState (uid stateName : String) (r : Reg) : Option Nat :=
  staticGet (key uid stateName) r

/-- Dynel.prop: newValue === undefined selects the read, anything else the
write. The read branch returns the stored value; the write branch returns
undefined (none). -/
def prop (uid propName : String) (newValue : Option Nat) (now : Nat)
    (r : Reg) : Option Nat × Reg :=
  match newValue with
  | none => (getProp uid propName r, r)
  | some v => (none, setProp uid propName v now r)

/-- Dynel.state: same shape as Dynel.prop over the state accessors. -/
def state (uid stateName : String) (newValue : Option Nat) (now : Nat)
    (r : Reg) : Option Nat × Reg :=
  match newValue with
  | none => (getState uid stateName r, r)
  | some v => (none, setState uid stateName v now r)

end RegM

namespace OV

/-- Subscriber callbacks for the notification-order analysis: a plain
observer, or a callback that reentrantly calls set(w) the first time it
runs (a closure guarded by a flag). -/
inductive Subscriber where
  | plain (id : Nat)
  | reenterOnce (id : Nat) (w : Nat)
deriving DecidableEq

/-- Identity of a subscriber, used in the invocation log. -/
def Subscriber.id : Subscriber → Nat
  | .plain i => i
  | .reenterOnce i _ => i

/-- One observable container (a utils.ts State instance): value, the
subscriber list, the ids of reentrant callbacks whose flag is already set,
and the invocation log recording (callback id, value the callback was
passed). -/
structure Obj where
  value : Option Nat
  subs : List Subscriber
  fired : List Nat
  log : List (Nat × Option Nat)
deriving DecidableEq

/-- The forEach loop of State.prototype.set: invoke each pending callback
with this.value as it stands at that moment. A reentrant callback assigns
its value and notifies the full subscriber list to completion before the
outer loop resumes. Fuel bounds the total number of steps so the
definition computes by kernel reduction; every run below uses ample fuel. -/
def notify (fuel : Nat) (o : Obj) (pending : List Subscriber) : Obj :=
  match fuel, pending with
  | _, [] => o
  | 0, _ :: _ => o
  | f + 1, sub :: rest =>
    match sub with
    | .plain i => notify f { o with log := o.log ++ [(i, o.value)] } rest
    | .reenterOnce i w =>
      if i ∈ o.fired then
        notify f { o with log := o.log ++ [(i, o.value)] } rest
      else
        let o1 : Obj := { o with fired := i :: o.fired, log := o.log ++ [(i, o.value)] }
        let o2 : Obj := { o1 with value := some w }
        let o3 := notify f o2 o2.subs
        notify f o3 rest

/-- State.prototype.set: assign the value, then run the callbacks. -/
def set (fuel : Nat) (newValue : Nat) (o : Obj) : Obj :=
  let o1 : Obj := { o with value := some newValue }
  notify fuel o1 o1.subs

/-- Whether a subscriber is a plain observer. -/
def isPlain : Subscriber → Bool
  | .plain _ => true
  | .reenterOnce _ _ => false

end OV

namespace Ev

/-- One Event object from utils.ts: its registered listeners (opaque ids). -/
structure Channel where
  listeners : List Nat
deriving DecidableEq

/-- The Event class statics: the instanceMap registry of named channels,
plus the log of listener invocations (listener id, payload). -/
structure Bus where
  channels : List (String × Channel)
  callLog : List (Nat × Nat)
deriving DecidableEq

/-- Static Event.addListener: get or create the named channel, append the
listener. -/
def addListener (name : String) (l : Nat) (b : Bus) : Bus :=
  match KV.find? b.channels name with
  | some ch =>
    { b with channels := KV.set b.channels name { listeners := ch.listeners ++ [l] } }
  | none => { b with channels := KV.set b.channels name { listeners := [l] } }

/-- Static Event.trigger: instanceMap.get(name)?.trigger(payload) - a
silent no-op when the channel does not exist, otherwise every listener is
invoked with the payload in list order. -/
def trigger (name : String) (payload : Nat) (b : Bus) : Bus :=
  match KV.find? b.channels name with
  | none => b
  | some ch =>
    { b with callLog := b.callLog ++ ch.listeners.map (fun l => (l, payload)) }

/-- The listeners currently registered on a named channel. -/
def listenersOf (b : Bus) (name : String) : List Nat :=
  match KV.find? b.channels name with
  | none => []
  | some ch => ch.listeners

end Ev

namespace Fetch

/-- One Dynel.fetchCache entry: the rendezvous State's value (the fetched
fragment, as an id), its subscribed callbacks, and the onResult
continuation of the caller whose call issued the external fetch (held by
that call's pending async frame). -/
structure Entry where
  val : Option Nat
  subs : List Nat
  firstCb : Nat
deriving DecidableEq

/-- The template-fetch subsystem: the fetchCache map, the log of external
network fetches issued (by kind), and the log of onResult invocations
(callback id, fragment id). -/
structure Sys where
  cache : List (String × Entry)
  fetchLog : List String
  callLog : List (Nat × Nat)
deriving DecidableEq

/-- The initial state: nothing requested yet. -/
def init : Sys := { cache := [], fetchLog := [], callLog := [] }

/-- The synchronous prefix of Dynel.fetch(kind, onResult): an unrequested
kind registers a fresh rendezvous entry and issues the external fetch; a
pending kind (entry present, value unset) subscribes onResult to the
rendezvous; a ready kind invokes onResult immediately with the cached
fragment. -/
def fetchCall (kind : String) (cb : Nat) (s : Sys) : Sys :=
  match KV.find? s.cache kind with
  | none =>
    { s with
      cache := KV.set s.cache kind { val := none, subs := [], firstCb := cb },
      fetchLog := s.fetchLog ++ [kind] }
  | some e =>
    match e.val with
    | none => { s with cache := KV.set s.cache kind { e with subs := e.subs ++ [cb] } }
    | some frag => { s with callLog := s.callLog ++ [(cb, frag)] }

/-- The resumption of Dynel.fetch after the awaited network fetch: invoke
the initiating caller's onResult with the materialized fragment, then
state.set stores the fragment and notifies every queued subscriber, in
subscription order. -/
def fetchResolve (kind : String) (frag : Nat) (s : Sys) : Sys :=
  match KV.find? s.cache kind with
  | none => s
  | some e =>
    match e.val with
    | some _ => s
    | none =>
      { s with
        cache := KV.set s.cache kind { e with val := some frag },
        callLog := s.callLog ++ [(e.firstCb, frag)] ++ e.subs.map (fun c => (c, frag)) }

/-- A sequence of Dynel.fetch calls for one kind, in order. -/
def fetchCalls (kind : String) (cbs : List Nat) (s : Sys) : Sys :=
  cbs.foldl (fun s2 cb => fetchCall kind cb s2) s

end Fetch

namespace Uid

/-- Decimal digits of n, least significant first, as characters; the fuel
argument makes the recursion structural so the definition computes by
kernel reduction. -/
def toDigitsRev (fuel n : Nat) : List Char :=
  match fuel with
  | 0 => []
  | f + 1 => if n = 0 then [] else Nat.digitChar (n % 10) :: toDigitsRev f (n / 10)

/-- Number.prototype.toString for a JS integer: its decimal digit string. -/
def jsNumToString (n : Nat) : String :=
  if n = 0 then "0" else String.mk (toDigitsRev (n + 1) n).reverse

/-- The uid generator in the Dynel constructor:
(Date.now() * 100 + Math.trunc(Math.random() * 10000)).toString(), where t
is the clock reading in milliseconds and r the random draw, 0 <= r < 10000. -/
def uid (t r : Nat) : String := jsNumToString (t * 100 + r)

/-- Decimal value of a digit string, inverse of jsNumToString. -/
def unDigitsRev : List Char → Nat
  | [] => 0
  | c :: cs => (c.toNat - 48) + 10 * unDigitsRev cs

/-- Reads a decimal string back to the number it renders. -/
def decode (s : String) : Nat := unDigitsRev s.data.reverse

end Uid

namespace Dom

/-- Document-tree value: elements with a tag, attributes and children, or
text. Nodes are values here; the claims settled over this model are about
which node stands at which position, not about object identity. -/
inductive Node where
  | elem (tag : String) (attrs : List (String × String)) (children : List Node)
  | text (s : String)

/-- Element.getAttribute("name") ?? "" as used on slot placeholders. -/
def slotNameOf (attrs : List (String × String)) : String :=
  (KV.find? attrs "name").getD ""

mutual

/-- Value-copy normal form of the slot projection: each placeholder whose
declared name has projected content carries that content as a value; every
other node is kept with its children processed recursively, and a
placeholder with no match stays, so slots below it are still visited.
This is NOT the general behaviour of the source - replaceWith moves the
one projected DOM node, see assembleSlots below - but it coincides with it
exactly when the matched placeholders of the template carry
pairwise-distinct names (proved in assembleSlots_nodup). -/
def substSlots (dump : List (String × Node)) : Node → Node
  | .text s => .text s
  | .elem tag attrs ch =>
    if tag = "slot" then
      match KV.find? dump (slotNameOf attrs) with
      | some c => c
      | none => .elem tag attrs (substSlotsList dump ch)
    else .elem tag attrs (substSlotsList dump ch)

/-- Pointwise value-copy projection over a child list. -/
def substSlotsList (dump : List (String × Node)) : List Node → List Node
  | [] => []
  | c :: cs => substSlots dump c :: substSlotsList dump cs

end

mutual

/-- The slot-projection loop of Dynel.assemble with the move semantics of
replaceWith: the projected content for a name is one DOM node, so when a
later placeholder with the same declared name is processed, that node is
removed from the position an earlier replacement put it at and reinserted
at the later placeholder. Net effect over the static querySelectorAll
list: the last matched placeholder of each name (in document order, not
below a matched placeholder - those are detached before their turn and
their replaceWith is a no-op) receives the content, every earlier one
vanishes from the tree together with the position it occupied, and
unmatched placeholders stay with their children processed. The traversal
here runs in reverse document order and threads the set of names already
placed at their final position: a matched placeholder whose name is
already in the set is an earlier duplicate and is dropped. Returns the
node's final form (none when it is removed) and the updated placed set. -/
def assembleSlots (dump : List (String × Node)) (placed : List String) :
    Node → Option Node × List String
  | .text s => (some (.text s), placed)
  | .elem tag attrs ch =>
    if tag = "slot" then
      match KV.find? dump (slotNameOf attrs) with
      | some c =>
        if slotNameOf attrs ∈ placed then (none, placed)
        else (some c, slotNameOf attrs :: placed)
      | none =>
        let p := assembleSlotsList dump placed ch
        (some (.elem tag attrs p.1), p.2)
    else
      let p := assembleSlotsList dump placed ch
      (some (.elem tag attrs p.1), p.2)

/-- Child lists are processed right to left, so the placed set seen by a
child already accounts for every placeholder later in document order. -/
def assembleSlotsList (dump : List (String × Node)) (placed : List String) :
    List Node → List Node × List String
  | [] => ([], placed)
  | c :: cs =>
    let p := assembleSlotsList dump placed cs
    let q := assembleSlots dump p.2 c
    (match q.1 with
     | some n => n :: p.1
     | none => p.1, q.2)

end

mutual

/-- Declared names of the matched placeholders of a tree, in document
order, not descending below a matched placeholder. -/
def matchedNames (dump : List (String × Node)) : Node → List String
  | .text _ => []
  | .elem tag attrs ch =>
    if tag = "slot" then
      match KV.find? dump (slotNameOf attrs) with
      | some _ => [slotNameOf attrs]
      | none => matchedNamesList dump ch
    else matchedNamesList dump ch

/-- Matched-placeholder names of a child list. -/
def matchedNamesList (dump : List (String × Node)) : List Node → List String
  | [] => []
  | c :: cs => matchedNames dump c ++ matchedNamesList dump cs

end

end Dom

namespace Script

/-- The regex class \w over ASCII. -/
def isWordChar (c : Char) : Bool :=
  (('a' ≤ c) && (c ≤ 'z')) || (('A' ≤ c) && (c ≤ 'Z')) ||
    (('0' ≤ c) && (c ≤ '9')) || c = '_'

/-- The regex class \s, restricted to the common ASCII whitespace. -/
def isSpaceChar (c : Char) : Bool :=
  c = ' ' || c = '\t' || c = '\n' || c = '\r'

mutual

/-- Continuation of the name grammar (\w+)(\-\w+)* after its first
character: greedily take word characters, and a dash only when a word
character follows; return the consumed characters and the rest. -/
def nameCont : List Char → List Char × List Char
  | [] => ([], [])
  | c :: cs =>
    if isWordChar c then
      (c :: (nameCont cs).1, (nameCont cs).2)
    else if c = '-' then
      match nameDash cs with
      | some p => ('-' :: p.1, p.2)
      | none => ([], c :: cs)
    else ([], c :: cs)

/-- A dash continuation is taken only when a word character follows the
dash. -/
def nameDash : List Char → Option (List Char × List Char)
  | [] => none
  | d :: ds => if isWordChar d then some (d :: (nameCont ds).1, (nameCont ds).2) else none

end

/-- Greedy match of the full name grammar (\w+)(\-\w+)* at the head. -/
def matchName : List Char → Option (List Char × List Char)
  | [] => none
  | c :: cs =>
    if isWordChar c then some (c :: (nameCont cs).1, (nameCont cs).2)
    else none

/-- Literal prefix match: the rest of the text after the given characters. -/
def stripLit : List Char → List Char → Option (List Char)
  | [], l => some l
  | _ :: _, [] => none
  | p :: ps, c :: cs => if p = c then stripLit ps cs else none

/-- The alternatives of the first pattern: $onProp | $onState. -/
def p1Forms : List (List Char) :=
  [['$', 'o', 'n', 'P', 'r', 'o', 'p'], ['$', 'o', 'n', 'S', 't', 'a', 't', 'e']]

/-- The alternatives of the second pattern: $prop | $ref | $state. -/
def p2Forms : List (List Char) :=
  [['$', 'p', 'r', 'o', 'p'], ['$', 'r', 'e', 'f'], ['$', 's', 't', 'a', 't', 'e']]

/-- First alternative whose literal matches at the head of the text. -/
def tryForms : List (List Char) → List Char → Option (List Char × List Char)
  | [], _ => none
  | f :: fs, l =>
    match stripLit f l with
    | some r => some (f, r)
    | none => tryForms fs l

/-- One required literal character at the head of the text. -/
def expectChar (c : Char) : List Char → Option (List Char)
  | [] => none
  | d :: ds => if d = c then some ds else none

/-- The part of both patterns after the form: an opening parenthesis, \s*,
the quoted name, and - for pattern 2 only (phase2 true) - the trailing \s*
consumed by the match. Returns the name and the unconsumed rest. -/
def matchTail (phase2 : Bool) (r2 : List Char) : Option (List Char × List Char) :=
  match expectChar '(' r2 with
  | none => none
  | some r3 =>
    match expectChar '"' (r3.dropWhile isSpaceChar) with
    | none => none
    | some r4 =>
      match matchName r4 with
      | none => none
      | some (name, r5) =>
        match expectChar '"' r5 with
        | none => none
        | some r6 => some (name, if phase2 then r6.dropWhile isSpaceChar else r6)

/-- One match attempt at the head of the text, for the two replaceAll
patterns of Dynel.prepareScript. With phase2 false this is pattern 1,
regex (\$(onProp|onState))\s*\(\s*"((\w+)(\-\w+)*)"; with phase2 true it
is pattern 2, regex (\$(prop|ref|state))\(\s*"((\w+)(\-\w+)*)"\s*, whose
trailing \s* is consumed by the match (and dropped by the replacement).
Only pattern 1 admits whitespace between the form and the parenthesis.
Returns the matched form, the quoted name, and the unconsumed rest. -/
def matchCallAt (phase2 : Bool) (l : List Char) :
    Option (List Char × List Char × List Char) :=
  match tryForms (if phase2 then p2Forms else p1Forms) l with
  | none => none
  | some (f, r1) =>
    match matchTail phase2 (if phase2 then r1 else r1.dropWhile isSpaceChar) with
    | none => none
    | some (name, rest) => some (f, name, rest)

/-- Characters consumed by stripLit: the whole literal. -/
theorem stripLit_eq {p l r : List Char} (h : stripLit p l = some r) :
    l = p ++ r := by
  induction p generalizing l with
  | nil => simpa [stripLit] using h
  | cons c cs ih =>
    match l with
    | [] => simp [stripLit] at h
    | d :: ds =>
      by_cases hc : c = d
      · subst hc
        simp only [stripLit, if_pos rfl] at h
        simpa using ih h
      · simp [stripLit, hc] at h

/-- Soundness of the alternative search. -/
theorem tryForms_eq {fs : List (List Char)} {l f r : List Char}
    (h : tryForms fs l = some (f, r)) : f ∈ fs ∧ l = f ++ r := by
  induction fs with
  | nil => simp [tryForms] at h
  | cons g gs ih =>
    simp only [tryForms] at h
    cases hs : stripLit g l with
    | some r2 =>
      rw [hs] at h
      obtain ⟨hf, hr⟩ := by simpa using h
      subst hf; subst hr
      exact ⟨by simp, stripLit_eq hs⟩
    | none =>
      rw [hs] at h
      obtain ⟨hin, hl⟩ := ih h
      exact ⟨by simp [hin], hl⟩

mutual

/-- Decomposition of the name continuation: it consumes a prefix. -/
theorem nameCont_eq : ∀ l : List Char, (nameCont l).1 ++ (nameCont l).2 = l
  | [] => rfl
  | c :: cs => by
    by_cases hc : isWordChar c
    · simp [nameCont, hc, nameCont_eq cs]
    · by_cases hd : c = '-'
      · subst hd
        cases hnd : nameDash cs with
        | none => simp [nameCont, hc, hnd]
        | some p => simp [nameCont, hc, hnd, nameDash_eq cs p hnd]
      · simp [nameCont, hc, hd]

/-- Decomposition of the dash continuation. -/
theorem nameDash_eq : ∀ (l : List Char) (p : List Char × List Char),
    nameDash l = some p → p.1 ++ p.2 = l
  | [], p, h => by simp [nameDash] at h
  | d :: ds, p, h => by
    by_cases hw : isWordChar d
    · simp only [nameDash, hw, if_true, Option.some.injEq] at h
      subst h
      simp [nameCont_eq ds]
    · simp [nameDash, hw] at h

end

/-- Decomposition of a name match: it consumes a nonempty prefix. -/
theorem matchName_eq {l n r : List Char} (h : matchName l = some (n, r)) :
    l = n ++ r ∧ n ≠ [] := by
  match l with
  | [] => simp [matchName] at h
  | c :: cs =>
    by_cases hc : isWordChar c
    · simp only [matchName, hc, if_true, Option.some.injEq, Prod.mk.injEq] at h
      obtain ⟨hn, hr⟩ := h
      subst hn
      subst hr
      exact ⟨by simpa using (nameCont_eq cs).symm, by simp⟩
    · simp [matchName, hc] at h

/-- The dropWhile result is no longer than its input. -/
theorem dropWhile_length_le (p : Char → Bool) :
    ∀ l : List Char, (l.dropWhile p).length ≤ l.length
  | [] => le_refl _
  | c :: cs => by
    by_cases hc : p c
    · simpa [List.dropWhile, hc] using Nat.le_succ_of_le (dropWhile_length_le p cs)
    · simp [List.dropWhile, hc]

/-- Characters consumed by expectChar: exactly the expected one. -/
theorem expectChar_eq {c : Char} {l r : List Char} (h : expectChar c l = some r) :
    l = c :: r := by
  match l with
  | [] => simp [expectChar] at h
  | d :: ds =>
    by_cases hd : d = c
    · subst hd
      simp [expectChar] at h
      rw [h]
    · simp [expectChar, hd] at h

/-- A successful tail match consumes at least one character. -/
theorem matchTail_shrink {phase2 : Bool} {r2 name rest : List Char}
    (h : matchTail phase2 r2 = some (name, rest)) :
    rest.length < r2.length := by
  unfold matchTail at h
  cases h1 : expectChar '(' r2 with
  | none => rw [h1] at h; simp at h
  | some r3 =>
    rw [h1] at h
    dsimp only at h
    have e1 := expectChar_eq h1
    cases h2 : expectChar '"' (r3.dropWhile isSpaceChar) with
    | none => rw [h2] at h; simp at h
    | some r4 =>
      rw [h2] at h
      dsimp only at h
      have e2 := expectChar_eq h2
      have hr4 : r4.length + 1 ≤ r3.length := by
        have hd := dropWhile_length_le isSpaceChar r3
        rw [e2] at hd
        simpa using hd
      cases hmn : matchName r4 with
      | none => rw [hmn] at h; simp at h
      | some q =>
        rw [hmn] at h
        obtain ⟨nm, r5⟩ := q
        dsimp only at h
        obtain ⟨hr4eq, hnm⟩ := matchName_eq hmn
        cases h3 : expectChar '"' r5 with
        | none => rw [h3] at h; simp at h
        | some r6 =>
          rw [h3] at h
          dsimp only at h
          have e3 := expectChar_eq h3
          simp only [Option.some.injEq, Prod.mk.injEq] at h
          obtain ⟨-, hrest⟩ := h
          have hrest2 : rest.length ≤ r6.length := by
            rw [← hrest]
            cases phase2
            · simp
            · simpa using dropWhile_length_le isSpaceChar r6
          have hr5 : 0 < nm.length := List.length_pos.mpr hnm
          have hr4b : r6.length + 1 ≤ r4.length := by
            rw [hr4eq, e3]
            simp only [List.length_append, List.length_cons]
            omega
          rw [e1]
          simp only [List.length_cons]
          omega

/-- A successful match consumes at least one character. -/
theorem matchCallAt_shrink {phase2 : Bool} {l f name rest : List Char}
    (h : matchCallAt phase2 l = some (f, name, rest)) :
    rest.length < l.length := by
  unfold matchCallAt at h
  cases htf : tryForms (if phase2 then p2Forms else p1Forms) l with
  | none => rw [htf] at h; simp at h
  | some p =>
    rw [htf] at h
    obtain ⟨f0, r1⟩ := p
    obtain ⟨hmem, hl⟩ := tryForms_eq htf
    have hf0 : f0 ≠ [] := by
      intro hnil
      subst hnil
      cases phase2 <;> simp [p1Forms, p2Forms] at hmem
    have hr1 : r1.length < l.length := by
      subst hl
      simp only [List.length_append]
      have : 0 < f0.length := List.length_pos.mpr hf0
      omega
    simp only at h
    cases hmt : matchTail phase2 (if phase2 then r1 else r1.dropWhile isSpaceChar) with
    | none => rw [hmt] at h; simp at h
    | some q =>
      rw [hmt] at h
      obtain ⟨nm, rst⟩ := q
      simp only [Option.some.injEq, Prod.mk.injEq] at h
      obtain ⟨-, -, hrest⟩ := h
      subst hrest
      have := matchTail_shrink hmt
      have h2 : (if phase2 then r1 else r1.dropWhile isSpaceChar).length ≤ r1.length := by
        cases phase2
        · simpa using dropWhile_length_le isSpaceChar r1
        · simp
      omega

/-- String.prototype.replaceAll for one pattern: scan left to right; at
each position either rewrite a match - emitting the form, then an opening
parenthesis, the quoted uid, a comma (with a space after it for pattern 1,
none for pattern 2, exactly as in the two replacement templates of
prepareScript), then the quoted original name - and continue after the
match, or emit the character and advance one position. -/
def scanRewrite (phase2 : Bool) (uid : List Char) (l : List Char) : List Char :=
  match h : matchCallAt phase2 l with
  | some (f, name, rest) =>
    f ++ '(' :: '"' ::
      (uid ++ '"' :: ',' :: (if phase2 then [] else [' ']) ++
        '"' :: (name ++ '"' :: scanRewrite phase2 uid rest))
  | none =>
    match l with
    | [] => []
    | c :: cs => c :: scanRewrite phase2 uid cs
termination_by l.length
decreasing_by
  · exact matchCallAt_shrink h
  · simp

/-- Dynel.prototype.prepareScript: the two chained replaceAll passes over
the embedded script text, binding the recognized calls to the instance's
uid. -/
def prepareScript (uid : List Char) (text : List Char) : List Char :=
  scanRewrite true uid (scanRewrite false uid text)

/-- The subscription forms, recognized by pattern 1. -/
inductive Form1 where
  | onProp
  | onState
deriving DecidableEq

/-- Characters of a pattern-1 form. -/
def Form1.render : Form1 → List Char
  | .onProp => ['$', 'o', 'n', 'P', 'r', 'o', 'p']
  | .onState => ['$', 'o', 'n', 'S', 't', 'a', 't', 'e']

/-- The read/write and reference forms, recognized by pattern 2. -/
inductive Form2 where
  | propF
  | refF
  | stateF
deriving DecidableEq

/-- Characters of a pattern-2 form. -/
def Form2.render : Form2 → List Char
  | .propF => ['$', 'p', 'r', 'o', 'p']
  | .refF => ['$', 'r', 'e', 'f']
  | .stateF => ['$', 's', 't', 'a', 't', 'e']

/-- Shape of a well-formed embedded script: literal text free of the $
marker, interleaved with calls of the five recognized forms. A quoted name
is carried as its dash-separated segments (seg0, segs); ws fields hold the
whitespace each pattern admits at that spot. -/
inductive Tok where
  | inert (s : List Char)
  | call1 (f : Form1) (ws1 ws2 : List Char) (seg0 : List Char) (segs : List (List Char))
  | call2 (f : Form2) (ws : List Char) (seg0 : List Char) (segs : List (List Char))
      (tws : List Char)
deriving DecidableEq

/-- The name a call token quotes: seg0-segs1-segs2-... -/
def renderName (seg0 : List Char) (segs : List (List Char)) : List Char :=
  seg0 ++ (segs.map (fun s => '-' :: s)).flatten

/-- The source text of one token. -/
def renderTok : Tok → List Char
  | .inert s => s
  | .call1 f ws1 ws2 seg0 segs =>
    f.render ++ ws1 ++ '(' :: (ws2 ++ '"' :: (renderName seg0 segs ++ ['"']))
  | .call2 f ws seg0 segs tws =>
    f.render ++ '(' :: (ws ++ '"' :: (renderName seg0 segs ++ '"' :: tws))

/-- The source text of a token list. -/
def render (toks : List Tok) : List Char := (toks.map renderTok).flatten

/-- The text a token yields after the first replaceAll pass: pattern-1
calls have the uid injected as an explicit first string argument (the
", " separator of replacement template 1); everything else is untouched. -/
def p1Tok (uid : List Char) : Tok → List Char
  | .call1 f _ _ seg0 segs =>
    f.render ++ '(' :: '"' ::
      (uid ++ '"' :: ',' :: ' ' :: '"' :: (renderName seg0 segs ++ ['"']))
  | t => renderTok t

/-- The text a token yields after both passes: every recognized call has
the uid injected as an explicit first string argument, with the original
quoted name as the next argument (pattern 2 uses a bare comma and swallows
the whitespace its trailing \s* matched). -/
def injectTok (uid : List Char) : Tok → List Char
  | .inert s => s
  | .call1 f _ _ seg0 segs =>
    f.render ++ '(' :: '"' ::
      (uid ++ '"' :: ',' :: ' ' :: '"' :: (renderName seg0 segs ++ ['"']))
  | .call2 f _ seg0 segs _ =>
    f.render ++ '(' :: '"' ::
      (uid ++ '"' :: ',' :: '"' :: (renderName seg0 segs ++ ['"']))

/-- A nonempty run of word characters. -/
def wordList (s : List Char) : Bool := !s.isEmpty && s.all isWordChar

/-- A run of whitespace. -/
def spaceList (s : List Char) : Bool := s.all isSpaceChar

/-- Well-formedness of one token. -/
def tokOk : Tok → Bool
  | .inert s => !s.isEmpty && s.all (fun c => c ≠ '$')
  | .call1 _ ws1 ws2 seg0 segs =>
    spaceList ws1 && spaceList ws2 && wordList seg0 && segs.all wordList
  | .call2 _ ws seg0 segs tws =>
    spaceList ws && wordList seg0 && segs.all wordList && spaceList tws

/-- Whether the next token's text starts with a non-space character (or
there is none). -/
def headNotSpace : List Tok → Bool
  | [] => true
  | t :: _ =>
    match renderTok t with
    | [] => false
    | c :: _ => !isSpaceChar c

/-- Whether a character list is empty or starts with a non-space character. -/
def headCharOk : List Char → Bool
  | [] => true
  | c :: _ => !isSpaceChar c

/-- Sequential well-formedness: the trailing \s* of pattern 2 is greedy, so
the text after a pattern-2 call must not begin with whitespace (it would be
consumed and dropped). -/
def seqOk : List Tok → Bool
  | [] => true
  | .call2 _ _ _ _ _ :: rest => headNotSpace rest && seqOk rest
  | _ :: rest => seqOk rest

end Script

namespace KV

/-- Lookup after set at the same key. -/
theorem find?_set_self {κ α : Type} [DecidableEq κ] (m : List (κ × α)) (k : κ) (v : α) :
    find? (set m k v) k = some v := by
  induction m with
  | nil => simp [find?, set]
  | cons p rest ih =>
    obtain ⟨k2, v2⟩ := p
    by_cases hk : k2 = k
    · subst hk
      simp [find?, set]
    · simp [find?, set, hk, ih]

/-- Lookup after set at a different key. -/
theorem find?_set_ne {κ α : Type} [DecidableEq κ] (m : List (κ × α)) (k k2 : κ) (v : α)
    (h : k2 ≠ k) : find? (set m k v) k2 = find? m k2 := by
  induction m with
  | nil => simp [find?, set, Ne.symm h]
  | cons p rest ih =>
    obtain ⟨k3, v3⟩ := p
    by_cases hk : k3 = k
    · subst hk
      simp [find?, set, Ne.symm h]
    · by_cases h32 : k3 = k2
      · subst h32
        simp [find?, set, hk]
      · simp [find?, set, hk, h32, ih]

/-- Setting twice at one key keeps only the second value. -/
theorem set_set_self {κ α : Type} [DecidableEq κ] (m : List (κ × α)) (k : κ) (v1 v2 : α) :
    set (set m k v1) k v2 = set m k v2 := by
  induction m with
  | nil => simp [set]
  | cons p rest ih =>
    obtain ⟨k2, v2b⟩ := p
    by_cases hk : k2 = k
    · subst hk
      simp [set]
    · simp [set, hk, ih]

/-- Setting a key to the value it already has changes nothing. -/
theorem set_self_of_find? {κ α : Type} [DecidableEq κ] {m : List (κ × α)} {k : κ} {v : α}
    (h : find? m k = some v) : set m k v = m := by
  induction m with
  | nil => simp [find?] at h
  | cons p rest ih =>
    obtain ⟨k2, v2⟩ := p
    by_cases hk : k2 = k
    · subst hk
      simp only [find?, if_true, if_pos] at h
      simp only [Option.some.injEq] at h
      simp [set, h]
    · simp only [find?, if_neg hk] at h
      simp [set, hk, ih h]

end KV

namespace RegM

/-- Writing through the static set makes the static get of the same name
see the value, provided the registry is coherent at that name (a
registered reference has a heap object, which every reachable Reg has). -/
theorem staticSet_get_self (name : String) (v : Nat) (now : Nat) (r : Reg)
    (hwf : ∀ ref, KV.find? r.instanceMap name = some ref →
      (KV.find? r.heap ref).isSome = true) :
    staticGet name (staticSet name v now r) = some v := by
  unfold staticSet
  cases hm : KV.find? r.instanceMap name with
  | some ref =>
    have hh := hwf ref hm
    cases ho : KV.find? r.heap ref with
    | none => rw [ho] at hh; simp at hh
    | some o => simp [objSet, ho, staticGet, hm, KV.find?_set_self]
  | none => simp [newState, objSet, staticGet, KV.find?_set_self]

end RegM

/-- C9: component properties and internal state share one backing registry
keyed by name + "." + uid: a setState is visible through getProp and a
setProp through getState, for the same instance id and name. The coherence
hypothesis says a reference registered under the derived key has a heap
object, which holds in every reachable registry. -/
theorem prop_state_shared (r : RegM.Reg) (u n : String) (v w : Nat) (now1 now2 : Nat)
    (hwf : ∀ ref, KV.find? r.instanceMap (RegM.key u n) = some ref →
      (KV.find? r.heap ref).isSome = true) :
    RegM.getProp u n (RegM.setState u n v now1 r) = some v ∧
    RegM.getState u n (RegM.setProp u n w now2 r) = some w := by
  constructor
  · exact RegM.staticSet_get_self (RegM.key u n) v now1 r hwf
  · exact RegM.staticSet_get_self (RegM.key u n) w now2 r hwf

/-- Witness for prop_state_shared at the empty registry. -/
theorem prop_state_shared_witness :
    RegM.getProp "7" "x" (RegM.setState "7" "x" 5 0 ⟨0, [], [], []⟩) = some 5 ∧
    RegM.getState "7" "x" (RegM.setProp "7" "x" 6 0 ⟨0, [], [], []⟩) = some 6 :=
  prop_state_shared ⟨0, [], [], []⟩ "7" "x" 5 6 0 0
    (fun ref h => by simp [KV.find?] at h)

/-- C10: calling the combined accessors with newValue undefined performs a
pure read - the registry is returned unchanged and the current stored
value is the result - while any defined value is stored as given, so these
entry points never store undefined. -/
theorem prop_state_undefined_reads (r : RegM.Reg) (u n : String) (now : Nat)
    (hwf : ∀ ref, KV.find? r.instanceMap (RegM.key u n) = some ref →
      (KV.find? r.heap ref).isSome = true) :
    RegM.prop u n none now r = (RegM.getProp u n r, r) ∧
    RegM.state u n none now r = (RegM.getState u n r, r) ∧
    (∀ v, RegM.getProp u n (RegM.prop u n (some v) now r).2 = some v) ∧
    (∀ v, RegM.getState u n (RegM.state u n (some v) now r).2 = some v) := by
  refine ⟨rfl, rfl, ?_, ?_⟩
  · intro v
    exact RegM.staticSet_get_self (RegM.key u n) v now r hwf
  · intro v
    exact RegM.staticSet_get_self (RegM.key u n) v now r hwf

/-- Witness for prop_state_undefined_reads at the empty registry. -/
theorem prop_state_undefined_reads_witness :
    RegM.prop "7" "x" none 0 ⟨0, [], [], []⟩ = (RegM.getProp "7" "x" ⟨0, [], [], []⟩, ⟨0, [], [], []⟩) ∧
    RegM.state "7" "x" none 0 ⟨0, [], [], []⟩ = (RegM.getState "7" "x" ⟨0, [], [], []⟩, ⟨0, [], [], []⟩) ∧
    (∀ v, RegM.getProp "7" "x" (RegM.prop "7" "x" (some v) 0 ⟨0, [], [], []⟩).2 = some v) ∧
    (∀ v, RegM.getState "7" "x" (RegM.state "7" "x" (some v) 0 ⟨0, [], [], []⟩).2 = some v) :=
  prop_state_undefined_reads ⟨0, [], [], []⟩ "7" "x" 0
    (fun ref h => by simp [KV.find?] at h)

/-- C7: the derived storage key is name + "." + uid, and for a fixed name
the derivation is injective in the instance id. -/
theorem key_derivation (name i : String) :
    RegM.key i name = name ++ "." ++ i ∧
    (∀ i2, RegM.key i name = RegM.key i2 name → i = i2) := by
  refine ⟨rfl, ?_⟩
  intro i2 h
  unfold RegM.key at h
  have hd := congrArg String.data h
  simp only [String.data_append] at hd
  have := List.append_cancel_left hd
  exact String.ext this

/-- Witness for key_derivation at a concrete name and id. -/
theorem key_derivation_witness :
    RegM.key "7" "x" = "x" ++ "." ++ "7" ∧ "7" = "7" :=
  ⟨(key_derivation "x" "7").1, (key_derivation "x" "7").2 "7" rfl⟩

/-- C5 counterexample: constructing a State does modify the named registry
(the constructor registers itself), and a second construction under an
already-registered name replaces the original container: after it, the
lookup returns the new container (reference 1), not the original
(reference 0). -/
theorem state_ctor_replaces_cex :
    KV.find? (RegM.newState none (some "k") 0
      { nextRef := 0, heap := [], instanceMap := [], callLog := [] }).2.instanceMap "k" = some 0 ∧
    KV.find? (RegM.newState none (some "k") 1
      (RegM.newState none (some "k") 0
        { nextRef := 0, heap := [], instanceMap := [], callLog := [] }).2).2.instanceMap "k" = some 1 ∧
    (0 : Nat) ≠ 1 := by decide

/-- C5 (amended): creating a container registers it in the named registry
under its derived name (the explicit name, or the stringified creation
time), replacing any existing binding for that name; bindings under every
other key are untouched, and no subscriber callback runs. -/
theorem state_ctor_registry_effect (init : Option Nat) (nm : Option String) (now : Nat)
    (r : RegM.Reg) :
    KV.find? (RegM.newState init nm now r).2.instanceMap (nm.getD (toString now)) =
      some (RegM.newState init nm now r).1 ∧
    (∀ k, k ≠ nm.getD (toString now) →
      KV.find? (RegM.newState init nm now r).2.instanceMap k = KV.find? r.instanceMap k) ∧
    (RegM.newState init nm now r).2.callLog = r.callLog := by
  refine ⟨?_, ?_, rfl⟩
  · simp [RegM.newState, KV.find?_set_self]
  · intro k hk
    simp [RegM.newState, KV.find?_set_ne _ _ _ _ hk]

/-- Witness for state_ctor_registry_effect at a concrete registry. -/
theorem state_ctor_registry_effect_witness :
    KV.find? (RegM.newState (some 3) (some "a") 0
      { nextRef := 5, heap := [], instanceMap := [("b", 2)], callLog := [] }).2.instanceMap "a" = some 5 ∧
    (∀ k, k ≠ "a" →
      KV.find? (RegM.newState (some 3) (some "a") 0
        { nextRef := 5, heap := [], instanceMap := [("b", 2)], callLog := [] }).2.instanceMap k =
        KV.find? [("b", 2)] k) ∧
    (RegM.newState (some 3) (some "a") 0
      { nextRef := 5, heap := [], instanceMap := [("b", 2)], callLog := [] }).2.callLog = [] :=
  state_ctor_registry_effect (some 3) (some "a") 0
    { nextRef := 5, heap := [], instanceMap := [("b", 2)], callLog := [] }

namespace Uid

/-- Value of a decimal digit character. -/
theorem digitChar_toNat : ∀ d, d < 10 → (Nat.digitChar d).toNat = 48 + d := by decide

/-- Round trip through the digit rendering, given enough fuel. -/
theorem unDigits_toDigits : ∀ fuel n, n < 10 ^ fuel →
    unDigitsRev (toDigitsRev fuel n) = n := by
  intro fuel
  induction fuel with
  | zero =>
    intro n h
    have hn : n = 0 := by simpa using h
    subst hn
    rfl
  | succ f ih =>
    intro n h
    by_cases hn : n = 0
    · subst hn
      simp [toDigitsRev, unDigitsRev]
    · have hlt : n / 10 < 10 ^ f := by
        have h2 : n < 10 * 10 ^ f := by
          have hp : 10 ^ (f + 1) = 10 * 10 ^ f := by ring
          omega
        exact Nat.div_lt_of_lt_mul h2
      have hmod : n % 10 < 10 := Nat.mod_lt n (by norm_num)
      simp only [toDigitsRev, hn, if_false, unDigitsRev]
      rw [ih (n / 10) hlt, digitChar_toNat (n % 10) hmod]
      omega

/-- jsNumToString decodes back to its argument. -/
theorem decode_jsNumToString (n : Nat) : decode (jsNumToString n) = n := by
  by_cases hn : n = 0
  · subst hn
    rfl
  · unfold jsNumToString decode
    simp only [hn, if_false, String.data]
    rw [List.reverse_reverse]
    have hpow : n < 10 ^ (n + 1) := by
      calc n < 10 ^ n := Nat.lt_pow_self (by norm_num) n
        _ ≤ 10 ^ (n + 1) := Nat.pow_le_pow_right (by norm_num) (Nat.le_succ n)
    exact unDigits_toDigits (n + 1) n hpow

/-- jsNumToString is injective. -/
theorem jsNumToString_inj {m n : Nat} (h : jsNumToString m = jsNumToString n) : m = n := by
  have h2 := congrArg decode h
  rwa [decode_jsNumToString, decode_jsNumToString] at h2

end Uid

/-- C6 counterexample: two construction events with legal random draws
(both below 10000), one at time 0 ms and one at time 1 ms, receive the
identical uid string, so distinct instances can share an instanceId. -/
theorem uid_collision_cex :
    Uid.uid 0 105 = Uid.uid 1 5 ∧ ((0, 105) : Nat × Nat) ≠ (1, 5) ∧
    105 < 10000 ∧ 5 < 10000 := by decide

/-- C6 (amended): two instances receive distinct uids exactly when their
derived numbers t * 100 + r differ; since the random draw is below 10000,
instances constructed at least 100 ms apart always receive distinct uids,
but instances closer in time can collide. -/
theorem uid_distinct (t1 r1 t2 r2 : Nat) (h1 : r1 < 10000) (h2 : r2 < 10000) :
    (t1 * 100 + r1 ≠ t2 * 100 + r2 → Uid.uid t1 r1 ≠ Uid.uid t2 r2) ∧
    (t1 + 100 ≤ t2 → Uid.uid t1 r1 ≠ Uid.uid t2 r2) := by
  constructor
  · intro hne heq
    exact hne (Uid.jsNumToString_inj heq)
  · intro hle heq
    have hnum := Uid.jsNumToString_inj heq
    omega

/-- Witness for uid_distinct at concrete times and draws. -/
theorem uid_distinct_witness :
    (5 : Nat) < 10000 ∧ (7 : Nat) < 10000 ∧ Uid.uid 0 5 ≠ Uid.uid 100 7 :=
  ⟨by decide, by decide,
    (uid_distinct 0 5 100 7 (by decide) (by decide)).2 (by decide)⟩

/-- C8: triggering a named event whose channel does not exist is a silent
no-op (the bus is returned unchanged, so nothing is created); when the
channel exists, every registered listener is invoked with the payload in
list order, and addListener grows that list at the end, so the invocation
order is the registration order. -/
theorem trigger_spec (b : Ev.Bus) (name : String) (payload : Nat) :
    (KV.find? b.channels name = none → Ev.trigger name payload b = b) ∧
    (∀ ch, KV.find? b.channels name = some ch →
      Ev.trigger name payload b =
        { b with callLog := b.callLog ++ ch.listeners.map (fun l => (l, payload)) }) ∧
    (∀ l, Ev.listenersOf (Ev.addListener name l b) name = Ev.listenersOf b name ++ [l]) := by
  refine ⟨?_, ?_, ?_⟩
  · intro h
    unfold Ev.trigger
    rw [h]
  · intro ch h
    unfold Ev.trigger
    rw [h]
  · intro l
    unfold Ev.addListener Ev.listenersOf
    cases h : KV.find? b.channels name with
    | some ch => simp [h, KV.find?_set_self]
    | none => simp [h, KV.find?_set_self]

/-- Witness for trigger_spec on a concrete bus. -/
theorem trigger_spec_witness :
    Ev.trigger "other" 9 { channels := [("click", { listeners := [3, 4] })], callLog := [] } =
      { channels := [("click", { listeners := [3, 4] })], callLog := [] } ∧
    Ev.trigger "click" 9 { channels := [("click", { listeners := [3, 4] })], callLog := [] } =
      { channels := [("click", { listeners := [3, 4] })],
        callLog := [] ++ [3, 4].map (fun l => (l, 9)) } ∧
    Ev.listenersOf (Ev.addListener "click" 7
        { channels := [("click", { listeners := [3, 4] })], callLog := [] }) "click" =
      Ev.listenersOf { channels := [("click", { listeners := [3, 4] })], callLog := [] } "click" ++ [7] :=
  ⟨(trigger_spec { channels := [("click", { listeners := [3, 4] })], callLog := [] } "other" 9).1 (by decide),
   (trigger_spec { channels := [("click", { listeners := [3, 4] })], callLog := [] } "click" 9).2.1
     { listeners := [3, 4] } (by decide),
   (trigger_spec { channels := [("click", { listeners := [3, 4] })], callLog := [] } "click" 9).2.2 7⟩

namespace OV

/-- A run of the notification loop over plain subscribers only appends
their invocations, each passed the value current at the start (which
nothing changes), in list order. -/
theorem notify_plain : ∀ (pending : List Subscriber) (fuel : Nat) (o : Obj),
    pending.all isPlain = true → pending.length ≤ fuel →
    notify fuel o pending =
      { o with log := o.log ++ pending.map (fun s => (s.id, o.value)) } := by
  intro pending
  induction pending with
  | nil =>
    intro fuel o hall hlen
    cases fuel <;> simp [notify]
  | cons sub rest ih =>
    intro fuel o hall hlen
    simp only [List.all_cons, Bool.and_eq_true] at hall
    obtain ⟨hsub, hrest⟩ := hall
    match fuel with
    | 0 => simp at hlen
    | f + 1 =>
      match sub with
      | .plain i =>
        simp only [notify]
        rw [ih f _ hrest (by simpa using Nat.lt_succ_iff.mp (Nat.lt_of_lt_of_le (Nat.lt_succ_of_le (Nat.le_refl _)) hlen))]
        simp [Subscriber.id]
      | .reenterOnce i w => simp [isPlain] at hsub

end OV

/-- C2 (amended): set(container, v) first stores v and then invokes every
subscriber registered at the moment of the call, synchronously and in
registration order, passing each the container's value as it stands at
that invocation - which is v whenever no subscriber reentrantly calls set
(first conjunct, for plain subscribers). If a subscriber does reentrantly
call set(w), the reentrant notifications run to completion before the
outer call's remaining subscribers, and those remaining subscribers then
receive the reentrant value w, not v (second conjunct: the concrete
depth-first run). -/
theorem set_ordered_notifications (fuel v : Nat) (o : OV.Obj)
    (hplain : o.subs.all OV.isPlain = true) (hfuel : o.subs.length ≤ fuel) :
    ((OV.set fuel v o).value = some v ∧
      (OV.set fuel v o).log = o.log ++ o.subs.map (fun s => (s.id, some v))) ∧
    OV.set 10 1 { value := none, subs := [.reenterOnce 0 2, .plain 1], fired := [], log := [] } =
      { value := some 2, subs := [.reenterOnce 0 2, .plain 1], fired := [0],
        log := [(0, some 1), (0, some 2), (1, some 2), (1, some 2)] } := by
  refine ⟨?_, by decide⟩
  unfold OV.set
  rw [OV.notify_plain o.subs fuel { o with value := some v } hplain hfuel]
  exact ⟨rfl, rfl⟩

/-- Witness for set_ordered_notifications on two plain subscribers. -/
theorem set_ordered_notifications_witness :
    (OV.set 5 3 { value := none, subs := [.plain 4, .plain 6], fired := [], log := [] }).value = some 3 ∧
    (OV.set 5 3 { value := none, subs := [.plain 4, .plain 6], fired := [], log := [] }).log =
      [] ++ [OV.Subscriber.plain 4, OV.Subscriber.plain 6].map (fun s => (s.id, some 3)) :=
  (set_ordered_notifications 5 3
    { value := none, subs := [.plain 4, .plain 6], fired := [], log := [] }
    (by decide) (by decide)).1

/-- C2 counterexample: with subscribers [a, b] where a reentrantly calls
set(2) from inside the notification of set(1), the log of the whole call
is [(a,1), (a,2), (b,2), (b,2)]: the outer call's remaining subscriber b
is finally invoked with 2, the reentrantly stored value, not with the
outer argument 1 - the code passes cb(this.value), not the set argument. -/
theorem set_reentrant_value_cex :
    (OV.set 10 1
        { value := none, subs := [.reenterOnce 0 2, .plain 1], fired := [], log := [] }).log =
      [(0, some 1), (0, some 2), (1, some 2), (1, some 2)] ∧
    ((1, some 2) : Nat × Option Nat) ≠ (1, some 1) := by decide

namespace Fetch

/-- One step of fetchCalls. -/
theorem fetchCalls_cons (kind : String) (cb : Nat) (cbs : List Nat) (s : Sys) :
    fetchCalls kind (cb :: cbs) s = fetchCalls kind cbs (fetchCall kind cb s) := by
  simp [fetchCalls]

/-- While the kind is pending, further calls only queue their callbacks, in
arrival order; no external fetch is issued and nothing is invoked. -/
theorem fetchCalls_pending (kind : String) :
    ∀ (cbs : List Nat) (s : Sys) (e : Entry),
      KV.find? s.cache kind = some e → e.val = none →
      fetchCalls kind cbs s =
        { s with cache := KV.set s.cache kind { e with subs := e.subs ++ cbs } } := by
  intro cbs
  induction cbs with
  | nil =>
    intro s e h hval
    simp [fetchCalls, KV.set_self_of_find? h]
  | cons cb cbs ih =>
    intro s e h hval
    obtain ⟨eval, esubs, efcb⟩ := e
    simp only at hval
    subst hval
    rw [fetchCalls_cons]
    have hstep : fetchCall kind cb s =
        { s with cache := KV.set s.cache kind { val := none, subs := esubs ++ [cb], firstCb := efcb } } := by
      unfold fetchCall
      rw [h]
    rw [hstep]
    rw [ih _ { val := none, subs := esubs ++ [cb], firstCb := efcb }
      (by simp [KV.find?_set_self]) rfl]
    simp [KV.set_set_self]

/-- Once the kind is ready, every further call is answered immediately
with the cached fragment; the cache is untouched. -/
theorem fetchCalls_ready (kind : String) :
    ∀ (cbs : List Nat) (s : Sys) (e : Entry) (frag : Nat),
      KV.find? s.cache kind = some e → e.val = some frag →
      fetchCalls kind cbs s =
        { s with callLog := s.callLog ++ cbs.map (fun c => (c, frag)) } := by
  intro cbs
  induction cbs with
  | nil =>
    intro s e frag h hval
    simp [fetchCalls]
  | cons cb cbs ih =>
    intro s e frag h hval
    obtain ⟨eval, esubs, efcb⟩ := e
    simp only at hval
    subst hval
    rw [fetchCalls_cons]
    have hstep : fetchCall kind cb s = { s with callLog := s.callLog ++ [(cb, frag)] } := by
      unfold fetchCall
      rw [h]
    rw [hstep]
    rw [ih _ { val := some frag, subs := esubs, firstCb := efcb } frag (by simpa using h) rfl]
    simp

end Fetch

/-- C1: with N = 1 + cbs.length callers arriving while the kind is
unrequested or pending, followed by the resolution of the network fetch,
followed by any number of late callers: exactly one external fetch is ever
issued for the kind, every callback is invoked exactly once with the same
fragment (the call log lists the early callbacks once each, in arrival
order, then the late ones, answered immediately at their own call), and
nothing else is invoked. -/
theorem fetch_single_flight (kind : String) (cb0 frag : Nat) (cbs post : List Nat) :
    (Fetch.fetchCalls kind post (Fetch.fetchResolve kind frag
      (Fetch.fetchCalls kind (cb0 :: cbs) Fetch.init))).fetchLog = [kind] ∧
    (Fetch.fetchCalls kind post (Fetch.fetchResolve kind frag
      (Fetch.fetchCalls kind (cb0 :: cbs) Fetch.init))).callLog =
      ((cb0 :: cbs) ++ post).map (fun c => (c, frag)) := by
  have h0 : Fetch.fetchCall kind cb0 Fetch.init =
      { cache := [(kind, { val := none, subs := [], firstCb := cb0 })],
        fetchLog := [kind], callLog := [] } := by
    unfold Fetch.fetchCall Fetch.init
    simp [KV.find?, KV.set]
  have h1 : Fetch.fetchCalls kind (cb0 :: cbs) Fetch.init =
      { cache := [(kind, { val := none, subs := cbs, firstCb := cb0 })],
        fetchLog := [kind], callLog := [] } := by
    rw [Fetch.fetchCalls_cons, h0,
      Fetch.fetchCalls_pending kind cbs _ { val := none, subs := [], firstCb := cb0 }
        (by simp [KV.find?]) rfl]
    simp [KV.set]
  have h2 : Fetch.fetchResolve kind frag
      (Fetch.fetchCalls kind (cb0 :: cbs) Fetch.init) =
      { cache := [(kind, { val := some frag, subs := cbs, firstCb := cb0 })],
        fetchLog := [kind], callLog := ((cb0 :: cbs)).map (fun c => (c, frag)) } := by
    rw [h1]
    unfold Fetch.fetchResolve
    simp [KV.find?, KV.set]
  rw [Fetch.fetchCalls_ready kind post _ { val := some frag, subs := cbs, firstCb := cb0 } frag
    (by rw [h2]; simp [KV.find?]) rfl]
  rw [h2]
  simp

namespace Dom

mutual

/-- With pairwise-distinct matched-placeholder names, none already placed,
the move semantics removes nothing and agrees with the value-copy
projection; the resulting placed set is the given one plus this tree's
matched names. -/
theorem assembleSlots_nodup (dump : List (String × Node)) :
    ∀ (t : Node) (placed : List String),
      (matchedNames dump t).Nodup →
      (∀ n ∈ matchedNames dump t, n ∉ placed) →
      (assembleSlots dump placed t).1 = some (substSlots dump t) ∧
      (∀ n, n ∈ (assembleSlots dump placed t).2 ↔
        n ∈ placed ∨ n ∈ matchedNames dump t)
  | .text s, placed, _, _ => by
    simp [assembleSlots, substSlots, matchedNames]
  | .elem tag attrs ch, placed, h1, h2 => by
    by_cases ht : tag = "slot"
    · subst ht
      cases hf : KV.find? dump (slotNameOf attrs) with
      | some c =>
        have hn : slotNameOf attrs ∉ placed := h2 _ (by simp [matchedNames, hf])
        refine ⟨?_, ?_⟩
        · simp [assembleSlots, hf, hn, substSlots]
        · intro n
          simp [assembleSlots, hf, hn, matchedNames, List.mem_cons]
          tauto
      | none =>
        have h1b : (matchedNamesList dump ch).Nodup := by
          simpa [matchedNames, hf] using h1
        have h2b : ∀ n ∈ matchedNamesList dump ch, n ∉ placed := by
          intro n hn
          exact h2 n (by simpa [matchedNames, hf] using hn)
        obtain ⟨e1, e2⟩ := assembleSlotsList_nodup dump ch placed h1b h2b
        refine ⟨?_, ?_⟩
        · simp [assembleSlots, hf, substSlots, e1]
        · intro n
          simp [assembleSlots, hf, matchedNames, e2 n]
    · have h1b : (matchedNamesList dump ch).Nodup := by
        simpa [matchedNames, ht] using h1
      have h2b : ∀ n ∈ matchedNamesList dump ch, n ∉ placed := by
        intro n hn
        exact h2 n (by simpa [matchedNames, ht] using hn)
      obtain ⟨e1, e2⟩ := assembleSlotsList_nodup dump ch placed h1b h2b
      refine ⟨?_, ?_⟩
      · simp [assembleSlots, ht, substSlots, e1]
      · intro n
        simp [assembleSlots, ht, matchedNames, e2 n]

/-- List version of assembleSlots_nodup. -/
theorem assembleSlotsList_nodup (dump : List (String × Node)) :
    ∀ (l : List Node) (placed : List String),
      (matchedNamesList dump l).Nodup →
      (∀ n ∈ matchedNamesList dump l, n ∉ placed) →
      (assembleSlotsList dump placed l).1 = substSlotsList dump l ∧
      (∀ n, n ∈ (assembleSlotsList dump placed l).2 ↔
        n ∈ placed ∨ n ∈ matchedNamesList dump l)
  | [], placed, _, _ => by
    simp [assembleSlotsList, substSlotsList, matchedNamesList]
  | c :: cs, placed, h1, h2 => by
    rw [show matchedNamesList dump (c :: cs) =
      matchedNames dump c ++ matchedNamesList dump cs from rfl] at h1 h2
    rw [List.nodup_append] at h1
    obtain ⟨h1c, h1cs, hdisj⟩ := h1
    have h2cs : ∀ n ∈ matchedNamesList dump cs, n ∉ placed := by
      intro n hn
      exact h2 n (by simp [hn])
    obtain ⟨ecs1, ecs2⟩ := assembleSlotsList_nodup dump cs placed h1cs h2cs
    have h2c : ∀ n ∈ matchedNames dump c, n ∉ (assembleSlotsList dump placed cs).2 := by
      intro n hn hmem
      rw [ecs2 n] at hmem
      rcases hmem with hm | hm
      · exact h2 n (by simp [hn]) hm
      · exact hdisj hn hm
    obtain ⟨ec1, ec2⟩ :=
      assembleSlots_nodup dump c (assembleSlotsList dump placed cs).2 h1c h2c
    refine ⟨?_, ?_⟩
    · simp [assembleSlotsList, ec1, ecs1, substSlotsList]
    · intro n
      simp only [assembleSlotsList]
      rw [ec2 n, ecs2 n,
        show matchedNamesList dump (c :: cs) =
          matchedNames dump c ++ matchedNamesList dump cs from rfl]
      simp only [List.mem_append]
      tauto

end

end Dom

namespace Script

/-- A whitespace character is not the call marker. -/
theorem isSpaceChar_ne_dollar {c : Char} (h : isSpaceChar c = true) : c ≠ '$' := by
  intro hc
  subst hc
  exact absurd h (by decide)

/-- A word character is not the call marker. -/
theorem isWordChar_ne_dollar {c : Char} (h : isWordChar c = true) : c ≠ '$' := by
  intro hc
  subst hc
  exact absurd h (by decide)

/-- dropWhile passes over an all-space prefix. -/
theorem dropWhile_space_append {s : List Char} (h : spaceList s = true) (r : List Char) :
    (s ++ r).dropWhile isSpaceChar = r.dropWhile isSpaceChar := by
  induction s with
  | nil => simp
  | cons c cs ih =>
    simp only [spaceList, List.all_cons, Bool.and_eq_true] at h
    obtain ⟨hc, hcs⟩ := h
    simp only [List.cons_append, List.dropWhile_cons, hc, if_true]
    exact ih hcs

/-- dropWhile stops at a non-space head. -/
theorem dropWhile_space_headOk {tws r : List Char} (h : spaceList tws = true)
    (hr : headCharOk r = true) : (tws ++ r).dropWhile isSpaceChar = r := by
  rw [dropWhile_space_append h]
  match r with
  | [] => rfl
  | c :: cs =>
    have hc : isSpaceChar c = false := by simpa [headCharOk] using hr
    simp [List.dropWhile_cons, hc]

/-- The name continuation walks through an all-word prefix. -/
theorem nameCont_word_append {w : List Char} (h : w.all isWordChar = true) (rest : List Char) :
    nameCont (w ++ rest) = (w ++ (nameCont rest).1, (nameCont rest).2) := by
  induction w with
  | nil => simp
  | cons c cs ih =>
    simp only [List.all_cons, Bool.and_eq_true] at h
    obtain ⟨hc, hcs⟩ := h
    simp only [List.cons_append, nameCont, hc, if_true, List.append_eq]
    rw [ih hcs]

/-- The name continuation consumes exactly the dash-joined segments and
stops at a character that neither continues a segment nor starts one. -/
theorem nameCont_segs {q : Char} (hq : isWordChar q = false) (hqd : q ≠ '-') :
    ∀ (segs : List (List Char)), segs.all wordList = true → ∀ r : List Char,
      nameCont ((segs.map (fun s => '-' :: s)).flatten ++ q :: r) =
        ((segs.map (fun s => '-' :: s)).flatten, q :: r) := by
  intro segs
  induction segs with
  | nil =>
    intro _ r
    simp [nameCont, hq, hqd]
  | cons s ss ih =>
    intro hall r
    simp only [List.all_cons, Bool.and_eq_true] at hall
    obtain ⟨hs, hss⟩ := hall
    match s, hs with
    | d :: ds, hs =>
      simp only [wordList, List.isEmpty_cons, Bool.not_false, Bool.true_and,
        List.all_cons, Bool.and_eq_true] at hs
      obtain ⟨hd, hds⟩ := hs
      have hassoc : ((((d :: ds) :: ss).map (fun s => '-' :: s)).flatten ++ q :: r) =
          '-' :: d :: (ds ++ ((ss.map (fun s => '-' :: s)).flatten ++ q :: r)) := by
        simp
      rw [hassoc]
      have hdash : isWordChar '-' = false := by decide
      have h1 : nameCont ('-' :: d :: (ds ++ ((ss.map (fun s => '-' :: s)).flatten ++ q :: r))) =
          ('-' :: d :: (nameCont (ds ++ ((ss.map (fun s => '-' :: s)).flatten ++ q :: r))).1,
            (nameCont (ds ++ ((ss.map (fun s => '-' :: s)).flatten ++ q :: r))).2) := by
        simp [nameCont, nameDash, hdash, hd]
      rw [h1, nameCont_word_append hds, ih hss r]
      simp

/-- The greedy name match recognizes exactly a rendered name followed by
its closing quote. -/
theorem matchName_render {seg0 : List Char} {segs : List (List Char)}
    (h0 : wordList seg0 = true) (hs : segs.all wordList = true) (r : List Char) :
    matchName (renderName seg0 segs ++ '"' :: r) = some (renderName seg0 segs, '"' :: r) := by
  match seg0, h0 with
  | c0 :: cs0, h0 =>
    simp only [wordList, List.isEmpty_cons, Bool.not_false, Bool.true_and,
      List.all_cons, Bool.and_eq_true] at h0
    obtain ⟨hc0, hcs0⟩ := h0
    have hassoc : renderName (c0 :: cs0) segs ++ '"' :: r =
        c0 :: (cs0 ++ ((segs.map (fun s => '-' :: s)).flatten ++ '"' :: r)) := by
      simp [renderName]
    rw [hassoc]
    simp only [matchName, hc0, if_true]
    rw [nameCont_word_append hcs0, nameCont_segs (by decide) (by decide) segs hs r]
    simp [renderName]

end Script

namespace Script

/-- Alternative search at a pattern-1 form: the form itself matches (the
two alternatives differ within their first four characters, so the search
is unambiguous). -/
theorem tryForms_p1 (f : Form1) (r : List Char) :
    tryForms p1Forms (f.render ++ r) = some (f.render, r) := by
  cases f <;> simp [tryForms, p1Forms, Form1.render, stripLit]

/-- Alternative search at a pattern-2 form. -/
theorem tryForms_p2 (f : Form2) (r : List Char) :
    tryForms p2Forms (f.render ++ r) = some (f.render, r) := by
  cases f <;> simp [tryForms, p2Forms, Form2.render, stripLit]

/-- No pattern-1 alternative matches at a pattern-2 form. -/
theorem tryForms_p1_at_p2 (f : Form2) (r : List Char) :
    tryForms p1Forms (f.render ++ r) = none := by
  cases f <;> simp [tryForms, p1Forms, Form2.render, stripLit]

/-- No pattern-2 alternative matches at a pattern-1 form. -/
theorem tryForms_p2_at_p1 (f : Form1) (r : List Char) :
    tryForms p2Forms (f.render ++ r) = none := by
  cases f <;> simp [tryForms, p2Forms, Form1.render, stripLit]

/-- No alternative of either pattern matches at a non-marker character. -/
theorem tryForms_not_dollar {c : Char} (h : c ≠ '$') (fs2 : Bool) (cs : List Char) :
    tryForms (if fs2 then p2Forms else p1Forms) (c :: cs) = none := by
  have hc : ¬('$' = c) := fun hh => h hh.symm
  cases fs2 <;> simp [tryForms, p1Forms, p2Forms, stripLit, hc]

/-- The tail matcher on a rendered call tail: parenthesis, admitted
whitespace, the quoted name, and (pattern 2) the greedy trailing \s*. -/
theorem matchTail_render (phase2 : Bool) {ws seg0 : List Char} {segs : List (List Char)}
    (hws : spaceList ws = true) (h0 : wordList seg0 = true)
    (hs : segs.all wordList = true) (tail : List Char) :
    matchTail phase2 ('(' :: (ws ++ '"' :: (renderName seg0 segs ++ '"' :: tail))) =
      some (renderName seg0 segs, if phase2 then tail.dropWhile isSpaceChar else tail) := by
  have e2 : (ws ++ '"' :: (renderName seg0 segs ++ '"' :: tail)).dropWhile isSpaceChar =
      '"' :: (renderName seg0 segs ++ '"' :: tail) := by
    rw [dropWhile_space_append hws]
    simp [List.dropWhile_cons, show isSpaceChar '"' = false by decide]
  unfold matchTail
  simp only [expectChar, if_pos rfl, e2, matchName_render h0 hs tail, reduceIte]

/-- Pattern 1 fires at a rendered subscription call, consuming exactly it. -/
theorem matchCallAt_call1 (f : Form1) {ws1 ws2 seg0 : List Char} {segs : List (List Char)}
    (hws1 : spaceList ws1 = true) (hws2 : spaceList ws2 = true)
    (h0 : wordList seg0 = true) (hs : segs.all wordList = true) (r : List Char) :
    matchCallAt false (renderTok (.call1 f ws1 ws2 seg0 segs) ++ r) =
      some (f.render, renderName seg0 segs, r) := by
  have hre : renderTok (.call1 f ws1 ws2 seg0 segs) ++ r =
      f.render ++ (ws1 ++ '(' :: (ws2 ++ '"' :: (renderName seg0 segs ++ '"' :: r))) := by
    simp [renderTok]
  have hdw : (ws1 ++ '(' :: (ws2 ++ '"' :: (renderName seg0 segs ++ '"' :: r))).dropWhile
      isSpaceChar = '(' :: (ws2 ++ '"' :: (renderName seg0 segs ++ '"' :: r)) := by
    rw [dropWhile_space_append hws1]
    simp [List.dropWhile_cons, show isSpaceChar '(' = false by decide]
  rw [hre]
  unfold matchCallAt
  simp only [Bool.false_eq_true, if_false, tryForms_p1, hdw,
    matchTail_render false hws2 h0 hs r, reduceIte]

/-- Pattern 2 fires at a rendered accessor call, consuming exactly it plus
any following whitespace up to a non-space continuation. -/
theorem matchCallAt_call2 (f : Form2) {ws seg0 tws : List Char} {segs : List (List Char)}
    (hws : spaceList ws = true) (h0 : wordList seg0 = true)
    (hs : segs.all wordList = true) (htws : spaceList tws = true)
    {r : List Char} (hr : headCharOk r = true) :
    matchCallAt true (renderTok (.call2 f ws seg0 segs tws) ++ r) =
      some (f.render, renderName seg0 segs, r) := by
  have hre : renderTok (.call2 f ws seg0 segs tws) ++ r =
      f.render ++ ('(' :: (ws ++ '"' :: (renderName seg0 segs ++ '"' :: (tws ++ r)))) := by
    simp [renderTok]
  rw [hre]
  unfold matchCallAt
  simp only [if_pos rfl, tryForms_p2, matchTail_render true hws h0 hs (tws ++ r),
    dropWhile_space_headOk htws hr, reduceIte]

/-- Pattern 1 does not fire at an accessor form. -/
theorem matchCallAt1_at_call2 (f : Form2) (r : List Char) :
    matchCallAt false (f.render ++ r) = none := by
  unfold matchCallAt
  simp only [Bool.false_eq_true, if_false, tryForms_p1_at_p2]

/-- Pattern 2 does not fire at a subscription form. -/
theorem matchCallAt2_at_call1 (f : Form1) (r : List Char) :
    matchCallAt true (f.render ++ r) = none := by
  unfold matchCallAt
  simp only [reduceIte, tryForms_p2_at_p1]

/-- Neither pattern fires at a non-marker character. -/
theorem matchCallAt_not_dollar {c : Char} (h : c ≠ '$') (phase2 : Bool) (cs : List Char) :
    matchCallAt phase2 (c :: cs) = none := by
  unfold matchCallAt
  rw [tryForms_not_dollar h]

end Script

namespace Script

/-- Unfolding of the scanner at a match. -/
theorem scanRewrite_eq_some {phase2 : Bool} {uid l f name rest : List Char}
    (h : matchCallAt phase2 l = some (f, name, rest)) :
    scanRewrite phase2 uid l =
      f ++ '(' :: '"' :: (uid ++ '"' :: ',' :: ((if phase2 then [] else [' ']) ++
        '"' :: (name ++ '"' :: scanRewrite phase2 uid rest))) := by
  rw [scanRewrite.eq_def]
  split
  · next f2 name2 rest2 heq =>
    rw [h] at heq
    simp only [Option.some.injEq, Prod.mk.injEq] at heq
    obtain ⟨hf, hn, hr⟩ := heq
    subst hf
    subst hn
    subst hr
    simp
  · next heq =>
    rw [h] at heq
    simp at heq

/-- Unfolding of the scanner at a non-matching position. -/
theorem scanRewrite_eq_none {phase2 : Bool} {uid : List Char} {c : Char} {cs : List Char}
    (h : matchCallAt phase2 (c :: cs) = none) :
    scanRewrite phase2 uid (c :: cs) = c :: scanRewrite phase2 uid cs := by
  rw [scanRewrite.eq_def]
  split
  · next f name rest heq =>
    rw [h] at heq
    simp at heq
  · next heq => rfl

/-- Unfolding of the scanner at the end of the text. -/
theorem scanRewrite_eq_nil (phase2 : Bool) (uid : List Char) :
    scanRewrite phase2 uid [] = [] := by
  rw [scanRewrite.eq_def]
  split
  · next f name rest heq =>
    exfalso
    have hm : matchCallAt phase2 [] = none := by
      unfold matchCallAt
      have h2 : tryForms (if phase2 then p2Forms else p1Forms) [] = none := by
        cases phase2 <;> simp [tryForms, p1Forms, p2Forms, stripLit]
      rw [h2]
    simp [hm] at heq
  · rfl

/-- Marker-free text passes through the scanner unchanged. -/
theorem scanRewrite_pass {phase2 : Bool} {uid : List Char} :
    ∀ {s : List Char}, s.all (fun c => c ≠ '$') = true → ∀ r : List Char,
      scanRewrite phase2 uid (s ++ r) = s ++ scanRewrite phase2 uid r := by
  intro s
  induction s with
  | nil => intro _ r; simp
  | cons c cs ih =>
    intro hall r
    simp only [List.all_cons, Bool.and_eq_true, decide_eq_true_eq] at hall
    obtain ⟨hc, hcs⟩ := hall
    rw [List.cons_append, scanRewrite_eq_none (matchCallAt_not_dollar hc phase2 (cs ++ r)),
      ih hcs r, List.cons_append]

end Script

namespace Script

/-- Whitespace contains no marker. -/
theorem all_ne_dollar_of_space {s : List Char} (h : spaceList s = true) :
    s.all (fun c => c ≠ '$') = true := by
  simp only [spaceList, List.all_eq_true, decide_eq_true_eq] at h ⊢
  intro c hc
  exact isSpaceChar_ne_dollar (h c hc)

/-- Word characters contain no marker. -/
theorem all_ne_dollar_of_word {s : List Char} (h : s.all isWordChar = true) :
    s.all (fun c => c ≠ '$') = true := by
  simp only [List.all_eq_true, decide_eq_true_eq] at h ⊢
  intro c hc
  exact isWordChar_ne_dollar (h c hc)

/-- A rendered name contains no marker. -/
theorem renderName_no_dollar {seg0 : List Char} {segs : List (List Char)}
    (h0 : wordList seg0 = true) (hs : segs.all wordList = true) :
    (renderName seg0 segs).all (fun c => c ≠ '$') = true := by
  simp only [List.all_eq_true] at hs
  simp only [wordList, Bool.and_eq_true, List.all_eq_true] at h0
  simp only [renderName, List.all_eq_true, List.mem_append, decide_eq_true_eq]
  intro c hc
  rcases hc with hc | hc
  · exact isWordChar_ne_dollar (h0.2 c hc)
  · rw [List.mem_flatten] at hc
    obtain ⟨l, hl, hcl⟩ := hc
    rw [List.mem_map] at hl
    obtain ⟨sg, hsg, rfl⟩ := hl
    rcases List.mem_cons.mp hcl with rfl | hcs
    · decide
    · have hw := hs sg hsg
      simp only [wordList, Bool.and_eq_true, List.all_eq_true] at hw
      exact isWordChar_ne_dollar (hw.2 c hcs)

/-- Every pattern-1 form is the marker followed by marker-free letters. -/
theorem form1_render_eq (f : Form1) :
    ∃ t, f.render = '$' :: t ∧ t.all (fun c => c ≠ '$') = true := by
  cases f <;> exact ⟨_, rfl, by decide⟩

/-- Every pattern-2 form is the marker followed by marker-free letters. -/
theorem form2_render_eq (f : Form2) :
    ∃ t, f.render = '$' :: t ∧ t.all (fun c => c ≠ '$') = true := by
  cases f <;> exact ⟨_, rfl, by decide⟩

/-- Phase-1 step at an inert token: unchanged. -/
theorem step_inert {phase2 : Bool} {uid s : List Char}
    (h : tokOk (.inert s) = true) (r : List Char) :
    scanRewrite phase2 uid (s ++ r) = s ++ scanRewrite phase2 uid r := by
  simp only [tokOk, Bool.and_eq_true] at h
  exact scanRewrite_pass h.2 r

/-- Phase-1 step at a subscription call: the uid is injected. -/
theorem step1_call1 {uid : List Char} (f : Form1) {ws1 ws2 seg0 : List Char}
    {segs : List (List Char)} (hok : tokOk (.call1 f ws1 ws2 seg0 segs) = true)
    (r : List Char) :
    scanRewrite false uid (renderTok (.call1 f ws1 ws2 seg0 segs) ++ r) =
      p1Tok uid (.call1 f ws1 ws2 seg0 segs) ++ scanRewrite false uid r := by
  simp only [tokOk, Bool.and_eq_true] at hok
  obtain ⟨⟨⟨hws1, hws2⟩, h0⟩, hs⟩ := hok
  rw [scanRewrite_eq_some (matchCallAt_call1 f hws1 hws2 h0 hs r)]
  simp [p1Tok]

/-- Phase-1 step at an accessor call: pattern 1 does not fire, the text
passes through untouched. -/
theorem step1_call2 {uid : List Char} (f : Form2) {ws seg0 tws : List Char}
    {segs : List (List Char)} (hok : tokOk (.call2 f ws seg0 segs tws) = true)
    (r : List Char) :
    scanRewrite false uid (renderTok (.call2 f ws seg0 segs tws) ++ r) =
      renderTok (.call2 f ws seg0 segs tws) ++ scanRewrite false uid r := by
  simp only [tokOk, Bool.and_eq_true] at hok
  obtain ⟨⟨⟨hws, h0⟩, hs⟩, htws⟩ := hok
  obtain ⟨t, hft, htd⟩ := form2_render_eq f
  have htail : (t ++ '(' :: (ws ++ '"' :: (renderName seg0 segs ++ '"' :: tws))).all
      (fun c => c ≠ '$') = true := by
    simp [List.all_append]
    exact ⟨by simpa [List.all_eq_true] using htd,
      by simpa [List.all_eq_true] using all_ne_dollar_of_space hws,
      by simpa [List.all_eq_true] using renderName_no_dollar h0 hs,
      by simpa [List.all_eq_true] using all_ne_dollar_of_space htws⟩
  have hre : renderTok (.call2 f ws seg0 segs tws) ++ r =
      '$' :: ((t ++ '(' :: (ws ++ '"' :: (renderName seg0 segs ++ '"' :: tws))) ++ r) := by
    simp [renderTok, hft]
  have hnone : matchCallAt false (renderTok (.call2 f ws seg0 segs tws) ++ r) = none := by
    have hre2 : renderTok (.call2 f ws seg0 segs tws) ++ r =
        f.render ++ ('(' :: (ws ++ '"' :: (renderName seg0 segs ++ '"' :: (tws ++ r)))) := by
      simp [renderTok]
    rw [hre2]
    exact matchCallAt1_at_call2 f _
  rw [hre] at hnone ⊢
  rw [scanRewrite_eq_none hnone, scanRewrite_pass htail r]
  simp [renderTok, hft]

/-- Phase-2 step at a rewritten subscription call: pattern 2 does not fire
on it (the forms differ), and neither the uid nor the rest of the
replacement contains the marker, so it passes through untouched. -/
theorem step2_call1 {uid : List Char} (huid : uid.all (fun c => c ≠ '$') = true)
    (f : Form1) {ws1 ws2 seg0 : List Char} {segs : List (List Char)}
    (hok : tokOk (.call1 f ws1 ws2 seg0 segs) = true) (r : List Char) :
    scanRewrite true uid (p1Tok uid (.call1 f ws1 ws2 seg0 segs) ++ r) =
      p1Tok uid (.call1 f ws1 ws2 seg0 segs) ++ scanRewrite true uid r := by
  simp only [tokOk, Bool.and_eq_true] at hok
  obtain ⟨⟨⟨hws1, hws2⟩, h0⟩, hs⟩ := hok
  obtain ⟨t, hft, htd⟩ := form1_render_eq f
  have htail : (t ++ '(' :: '"' ::
      (uid ++ '"' :: ',' :: ' ' :: '"' :: (renderName seg0 segs ++ ['"']))).all
      (fun c => c ≠ '$') = true := by
    simp [List.all_append]
    exact ⟨by simpa [List.all_eq_true] using htd,
      by simpa [List.all_eq_true] using huid,
      by simpa [List.all_eq_true] using renderName_no_dollar h0 hs⟩
  have hre : p1Tok uid (.call1 f ws1 ws2 seg0 segs) ++ r =
      '$' :: ((t ++ '(' :: '"' ::
        (uid ++ '"' :: ',' :: ' ' :: '"' :: (renderName seg0 segs ++ ['"']))) ++ r) := by
    simp [p1Tok, hft]
  have hnone : matchCallAt true (p1Tok uid (.call1 f ws1 ws2 seg0 segs) ++ r) = none := by
    have hre2 : p1Tok uid (.call1 f ws1 ws2 seg0 segs) ++ r =
        f.render ++ ('(' :: '"' ::
          (uid ++ '"' :: ',' :: ' ' :: '"' :: (renderName seg0 segs ++ ['"'])) ++ r) := by
      simp [p1Tok]
    rw [hre2]
    exact matchCallAt2_at_call1 f _
  rw [hre] at hnone ⊢
  rw [scanRewrite_eq_none hnone, scanRewrite_pass htail r]
  simp [p1Tok, hft]

/-- Phase-2 step at an accessor call: the uid is injected and the trailing
whitespace is swallowed, provided the following text does not begin with
whitespace. -/
theorem step2_call2 {uid : List Char} (f : Form2) {ws seg0 tws : List Char}
    {segs : List (List Char)} (hok : tokOk (.call2 f ws seg0 segs tws) = true)
    {r : List Char} (hr : headCharOk r = true) :
    scanRewrite true uid (renderTok (.call2 f ws seg0 segs tws) ++ r) =
      injectTok uid (.call2 f ws seg0 segs tws) ++ scanRewrite true uid r := by
  simp only [tokOk, Bool.and_eq_true] at hok
  obtain ⟨⟨⟨hws, h0⟩, hs⟩, htws⟩ := hok
  rw [scanRewrite_eq_some (matchCallAt_call2 f hws h0 hs htws hr)]
  simp [injectTok]

end Script

namespace Script

/-- The phase-1 image of a well-formed token list starts with a non-space
character whenever its source does. -/
theorem headCharOk_p1 {uid : List Char} :
    ∀ ts : List Tok, ts.all tokOk = true → headNotSpace ts = true →
      headCharOk ((ts.map (p1Tok uid)).flatten) = true := by
  intro ts hok hhead
  match ts with
  | [] => rfl
  | t :: ts2 =>
    simp only [List.all_cons, Bool.and_eq_true] at hok
    match t with
    | .inert s =>
      match s, hok with
      | c :: s2, hok =>
        have hc : isSpaceChar c = false := by
          simpa [headNotSpace, renderTok] using hhead
        simp [p1Tok, renderTok, headCharOk, hc]
      | [], hok => exact absurd hok.1 (by simp [tokOk])
    | .call1 f ws1 ws2 seg0 segs =>
      obtain ⟨t2, hft, -⟩ := form1_render_eq f
      simp [p1Tok, hft, headCharOk, show isSpaceChar '$' = false by decide]
    | .call2 f ws seg0 segs tws =>
      obtain ⟨t2, hft, -⟩ := form2_render_eq f
      simp [p1Tok, renderTok, hft, headCharOk, show isSpaceChar '$' = false by decide]

/-- The first replaceAll pass maps every well-formed token to its phase-1
image: subscription calls get the uid injected, everything else is kept. -/
theorem phase1 (uid : List Char) :
    ∀ toks : List Tok, toks.all tokOk = true →
      scanRewrite false uid (render toks) = (toks.map (p1Tok uid)).flatten := by
  intro toks
  induction toks with
  | nil =>
    intro _
    simpa [render] using scanRewrite_eq_nil false uid
  | cons t ts ih =>
    intro hall
    simp only [List.all_cons, Bool.and_eq_true] at hall
    obtain ⟨ht, hts⟩ := hall
    have hrender : render (t :: ts) = renderTok t ++ render ts := by simp [render]
    rw [hrender]
    match t with
    | .inert s =>
      rw [show renderTok (.inert s) = s from rfl, step_inert ht (render ts), ih hts]
      simp [p1Tok, renderTok]
    | .call1 f ws1 ws2 seg0 segs =>
      rw [step1_call1 f ht (render ts), ih hts]
      simp
    | .call2 f ws seg0 segs tws =>
      rw [step1_call2 f ht (render ts), ih hts]
      simp [p1Tok]

/-- The second replaceAll pass over the phase-1 image injects the uid into
the accessor calls and leaves everything else - including the already
rewritten subscription calls - untouched. -/
theorem phase2 (uid : List Char) (huid : uid.all (fun c => c ≠ '$') = true) :
    ∀ toks : List Tok, toks.all tokOk = true → seqOk toks = true →
      scanRewrite true uid ((toks.map (p1Tok uid)).flatten) =
        (toks.map (injectTok uid)).flatten := by
  intro toks
  induction toks with
  | nil =>
    intro _ _
    simpa using scanRewrite_eq_nil true uid
  | cons t ts ih =>
    intro hall hseq
    simp only [List.all_cons, Bool.and_eq_true] at hall
    obtain ⟨ht, hts⟩ := hall
    have hflat : ((t :: ts).map (p1Tok uid)).flatten =
        p1Tok uid t ++ (ts.map (p1Tok uid)).flatten := by simp
    rw [hflat]
    match t with
    | .inert s =>
      have hseq2 : seqOk ts = true := by simpa [seqOk] using hseq
      rw [show p1Tok uid (.inert s) = s from rfl, step_inert ht _, ih hts hseq2]
      simp [injectTok]
    | .call1 f ws1 ws2 seg0 segs =>
      have hseq2 : seqOk ts = true := by simpa [seqOk] using hseq
      rw [step2_call1 huid f ht _, ih hts hseq2]
      simp [p1Tok, injectTok]
    | .call2 f ws seg0 segs tws =>
      simp only [seqOk, Bool.and_eq_true] at hseq
      obtain ⟨hhead, hseq2⟩ := hseq
      rw [show p1Tok uid (.call2 f ws seg0 segs tws) =
        renderTok (.call2 f ws seg0 segs tws) from rfl]
      rw [step2_call2 f ht (headCharOk_p1 ts hts hhead), ih hts hseq2]
      simp

end Script

/-- C3: for every embedded script text assembled from marker-free literal
segments and calls of the five recognized forms - property and state
read/write ($prop, $state), reference lookup ($ref), and subscription
($onProp, $onState), each applied to a quoted dash-separated name -
prepareScript rewrites every one of the calls by injecting the instance's
uid as an explicit first string argument, keeping the original quoted name
as the next argument, and leaves all other text unchanged. The uid itself
must not contain the $ marker (real uids are decimal digits), and text
following an accessor call must not begin with whitespace (pattern 2's
trailing \s* is greedy and swallows it). -/
theorem prepareScript_injects (uid : List Char) (toks : List Script.Tok)
    (huid : uid.all (fun c => c ≠ '$') = true)
    (hok : toks.all Script.tokOk = true) (hseq : Script.seqOk toks = true) :
    Script.prepareScript uid (Script.render toks) =
      (toks.map (Script.injectTok uid)).flatten := by
  unfold Script.prepareScript
  rw [Script.phase1 uid toks hok, Script.phase2 uid huid toks hok hseq]

/-- Witness for prepareScript_injects: a script with a $state call, an
$onProp call on a dashed name, and surrounding literal text. -/
theorem prepareScript_injects_witness :
    Script.prepareScript "42".data (Script.render
      [.inert "x = ".data,
       .call2 .stateF [] "count".data [] [],
       .inert ") + 1;".data,
       .call1 .onProp [' '] [] "user".data ["name".data],
       .inert ", h);".data]) =
      ([.inert "x = ".data,
        .call2 .stateF [] "count".data [] [],
        .inert ") + 1;".data,
        .call1 .onProp [' '] [] "user".data ["name".data],
        .inert ", h);".data].map (Script.injectTok "42".data)).flatten :=
  prepareScript_injects "42".data
    [.inert "x = ".data,
     .call2 .stateF [] "count".data [] [],
     .inert ") + 1;".data,
     .call1 .onProp [' '] [] "user".data ["name".data],
     .inert ", h);".data]
    (by decide) (by decide) (by decide)
